import Mathlib

/-!
# Agent-based market simulator (`agents.h`, `agents.cpp`)

Shallow embedding of the Dealer/Agent simulation engine, and of the payoff and
closed-form pricing functions of `black_scholes_calculation.cpp`.

* `double` is modelled by an arbitrary linearly ordered field `α` (the theorems that need
  analytic facts about `exp` and `log` are stated over `ℝ`); rounding is not modelled.
* Of the exceptional doubles, the underflow of `exp` to `0.0` is modelled (`dexp`); in the
  simulator `inf` and NaN have no counterpart, so statements about flows exclude the zero
  divisor of `ValueAgent::tick`; the option pricing functions are fallible and return `none`
  where an intermediate result is not a finite number.
* The global generator `mt_rand` together with `dis_standard_normal` is modelled as a stream
  `rnd : Nat → α` of draws and a cursor `pos : Nat`; a draw at cursor `pos` returns `rnd pos`
  and moves the cursor to `pos + 1`.
* Mutable objects (the agents, the `simResults` vector) are modelled by explicit state passing.
-/

namespace FinEng

/-! ## Data model -/

/-- The two `<cmath>` functions called by the simulator. -/
structure Libm (α : Type) where
  exp : α → α
  log : α → α

/-- The function `exp` of `<cmath>` on doubles, without rounding: the result
underflows to `0.0` when the exact value is at most `2 ^ (-1075)`, half the smallest
positive double. The overflow to `inf` (arguments above about 709.78) has no
counterpart in `ℝ`. -/
noncomputable def dexp (x : ℝ) : ℝ :=
  if Real.exp x ≤ 2 ^ (-1075 : ℤ) then 0 else Real.exp x

/-- The `<cmath>` functions on the real numbers. -/
noncomputable def realMath : Libm ℝ := ⟨dexp, Real.log⟩

/-- Class `ValueAgent` of `agents.h`: the two fields inherited from `Agent`. -/
structure ValueAgent (α : Type) where
  tradeProb : α
  tradeScale : α

/-- Class `MomentumAgent` of `agents.h`. The constructor leaves `state` at its
in-class initialiser `0`. -/
structure MomentumAgent (α : Type) where
  tradeProb : α
  tradeScale : α
  entryPrice : α
  exitPrice : α
  state : Int := 0

/-- Class `NoiseAgent` of `agents.h`: the two fields inherited from `Agent`. -/
structure NoiseAgent (α : Type) where
  tradeProb : α
  tradeScale : α

/-- Constructor `NoiseAgent(double tradeScale) : Agent(1.0, tradeScale)`. -/
def NoiseAgent.new {α : Type} [One α] (tradeScale : α) : NoiseAgent α :=
  { tradeProb := 1, tradeScale := tradeScale }

/-- An `Agent*` held by the dealer: one of the three concrete subclasses. -/
inductive Agent (α : Type) where
  | value (a : ValueAgent α)
  | momentum (a : MomentumAgent α)
  | noise (a : NoiseAgent α)

/-- Class `Result` of `agents.h`. -/
structure Result (α : Type) where
  sim : Int
  period : Int
  price : α

/-- Class `Dealer` of `agents.h`. -/
structure Dealer (α : Type) where
  agents : List (Agent α)
  priceScale : α

variable {α : Type}

/-- Field `tradeProb` of the base class. -/
def Agent.tradeProb : Agent α → α
  | .value a => a.tradeProb
  | .momentum a => a.tradeProb
  | .noise a => a.tradeProb

/-- Field `tradeScale` of the base class. -/
def Agent.tradeScale : Agent α → α
  | .value a => a.tradeScale
  | .momentum a => a.tradeScale
  | .noise a => a.tradeScale

/-! ## Agents -/

section Agents

variable [LinearOrderedField α]

/-- `ValueAgent::tick`. Where `2.0 + log price = 0` the C++ quotient is `inf`, which
`α` does not have (the field quotient is 0 there): statements about the value of
the flow exclude that point. -/
def ValueAgent.tick (M : Libm α) (a : ValueAgent α) (price : α) : α :=
  a.tradeScale * (-1 * 0.5 + (1 / (2.0 + M.log price)))

/-- The state update at the head of `MomentumAgent::tick` (the `if / else if` chain). -/
def MomentumAgent.nextState (a : MomentumAgent α) (price : α) : Int :=
  if a.state = 0 then
    (if price > a.entryPrice then 1 else a.state)
  else if a.state = 1 then
    (if price > a.exitPrice then 2 else a.state)
  else if a.state = 2 then
    (if price < a.entryPrice then 3 else a.state)
  else a.state

/-- The value `netToTrade` computed at the tail of `MomentumAgent::tick` from the
updated state. -/
def MomentumAgent.flowOf (a : MomentumAgent α) (state : Int) : α :=
  if state = 1 then a.tradeScale
  else if state = 2 then -1 * 3.0 * a.tradeScale
  else 0.0

/-- `MomentumAgent::tick`: the returned flow and the agent after the call. -/
def MomentumAgent.tick (a : MomentumAgent α) (price : α) : α × MomentumAgent α :=
  let state := a.nextState price
  (a.flowOf state, { a with state := state })

/-- `MomentumAgent::reset`. -/
def MomentumAgent.reset (a : MomentumAgent α) : MomentumAgent α :=
  { a with state := 0 }

/-- `NoiseAgent::tick`: one draw from the global stream; returns the flow and the
new cursor. The price is ignored. -/
def NoiseAgent.tick (a : NoiseAgent α) (_price : α) (rnd : Nat → α) (pos : Nat) : α × Nat :=
  (rnd pos * a.tradeScale, pos + 1)

/-- Outcome of a virtual call `agents[j]->tick(price)`. -/
structure TickOut (α : Type) where
  flow : α
  agent : Agent α
  pos : Nat

/-- Virtual dispatch of `tick`. -/
def Agent.tick (M : Libm α) (rnd : Nat → α) (price : α) (pos : Nat) : Agent α → TickOut α
  | .value a => ⟨a.tick M price, .value a, pos⟩
  | .momentum a => ⟨(a.tick price).1, .momentum (a.tick price).2, pos⟩
  | .noise a => ⟨(a.tick price rnd pos).1, .noise a, (a.tick price rnd pos).2⟩

/-- Virtual dispatch of `reset`: `Agent::reset` is empty, only `MomentumAgent`
overrides it. -/
def Agent.reset : Agent α → Agent α
  | .value a => .value a
  | .momentum a => .momentum a.reset
  | .noise a => .noise a

end Agents

/-! ## Dealer -/

section DealerDefs

variable [LinearOrderedField α]

/-- `Dealer::addAgent`. -/
def Dealer.addAgent (d : Dealer α) (a : Agent α) : Dealer α :=
  { d with agents := d.agents ++ [a] }

/-- `Dealer::getPrice`. -/
def Dealer.getPrice (M : Libm α) (d : Dealer α) (net : α) : α :=
  M.exp (d.priceScale * net)

/-- The variables live inside `Dealer::runSimulation`: the agents (with their
internal state), the cursor of the random stream, the locals `price` and `net`,
and the output vector. -/
structure Sim (α : Type) where
  agents : List (Agent α)
  pos : Nat
  price : α
  net : α
  simResults : List (Result α)

/-- State of the loop over `j`: the running `net`, the stream cursor and the agents
already polled (in order). -/
structure Poll (α : Type) where
  net : α
  pos : Nat
  agents : List (Agent α)

/-- Body of the loop over `j` for one agent: draw `u`, and if `u < tradeProb`
add `tick(price)` to `net`. -/
def pollAgent (M : Libm α) (rnd : Nat → α) (price : α) (p : Poll α) (a : Agent α) : Poll α :=
  let u := rnd p.pos
  if u < a.tradeProb then
    let t := a.tick M rnd price (p.pos + 1)
    ⟨p.net + t.flow, t.pos, p.agents ++ [t.agent]⟩
  else
    ⟨p.net, p.pos + 1, p.agents ++ [a]⟩

/-- The loop `for (int j = 0; j < agents.size(); j++)`. -/
def pollAgents (M : Libm α) (rnd : Nat → α) (price : α) (agents : List (Agent α))
    (net : α) (pos : Nat) : Poll α :=
  agents.foldl (pollAgent M rnd price) ⟨net, pos, []⟩

/-- Body of the loop over `k`. -/
def periodStep (M : Libm α) (rnd : Nat → α) (d : Dealer α) (i : Int) (s : Sim α) (k : Nat) :
    Sim α :=
  let p := pollAgents M rnd s.price s.agents s.net s.pos
  let price := d.getPrice M p.net
  { agents := p.agents, pos := p.pos, price := price, net := p.net,
    simResults := s.simResults ++ [⟨i, (k : Int), price⟩] }

/-- Body of the loop over `i`: reset all agents, push the start record, run the
periods. -/
def replication (M : Libm α) (rnd : Nat → α) (d : Dealer α) (numPeriods : Int)
    (s : Sim α) (i : Nat) : Sim α :=
  let start : Sim α :=
    { agents := s.agents.map Agent.reset, pos := s.pos, price := 1, net := 0,
      simResults := s.simResults ++ [⟨(i : Int), 0, 1.0⟩] }
  (List.range numPeriods.toNat).foldl (periodStep M rnd d (i : Int)) start

/-- `Dealer::runSimulation`, started with the random stream at cursor `pos`.
The fields `price` and `net` of the initial state stand for the not yet declared
locals. -/
def Dealer.runSimulation (M : Libm α) (rnd : Nat → α) (d : Dealer α)
    (numSimulations numPeriods : Int) (pos : Nat) : Sim α :=
  (List.range numSimulations.toNat).foldl (replication M rnd d numPeriods)
    { agents := d.agents, pos := pos, price := 1, net := 0, simResults := [] }

end DealerDefs

/-! ## Auxiliary definitions: loop prefixes, traces and the specification side -/

section Auxiliary

variable [LinearOrderedField α]

/-- State after the first `n` iterations of the loop over `k`, started from `s`. -/
def afterPeriods (M : Libm α) (rnd : Nat → α) (d : Dealer α) (i : Int) (s : Sim α) (n : Nat) :
    Sim α :=
  (List.range n).foldl (periodStep M rnd d i) s

/-- State after the first `n` iterations of the loop over `i`. -/
def afterReplications (M : Libm α) (rnd : Nat → α) (d : Dealer α) (numPeriods : Int)
    (pos : Nat) (n : Nat) : Sim α :=
  (List.range n).foldl (replication M rnd d numPeriods)
    { agents := d.agents, pos := pos, price := 1, net := 0, simResults := [] }

/-- State of `replication` just before its loop over `k`. -/
def replicationStart (s : Sim α) (i : Nat) : Sim α :=
  { agents := s.agents.map Agent.reset, pos := s.pos, price := 1, net := 0,
    simResults := s.simResults ++ [⟨(i : Int), 0, 1.0⟩] }

/-- The records pushed by one pass of the loop over `i` entered in state `s`. -/
def replicationRecords (M : Libm α) (rnd : Nat → α) (d : Dealer α) (numPeriods : Int)
    (s : Sim α) (i : Nat) : List (Result α) :=
  (⟨(i : Int), 0, 1.0⟩ : Result α) ::
    (List.range numPeriods.toNat).map fun (k : Nat) =>
      ⟨(i : Int), (k : Int), (afterPeriods M rnd d i (replicationStart s i) (k + 1)).price⟩

/-- The sequence of states of a momentum agent fed the prices one `tick` after the
other: the state before the first call, then the state after each call. -/
def MomentumAgent.states (a : MomentumAgent α) : List α → List Int
  | [] => [a.state]
  | p :: ps => a.state :: (a.tick p).2.states ps

/-- What one period contributes: the flows of the agents that passed the gate (in
polling order), the agents after the period and the stream cursor after it. -/
structure PeriodOut (α : Type) where
  flows : List α
  agents : List (Agent α)
  pos : Nat

/-- Specification of one period: the agents are taken in insertion order; each one
draws `u`, and acts iff `u < tradeProb`; every acting agent is ticked at the same
`price`. The flows are collected, not yet summed. -/
def specPeriod (M : Libm α) (rnd : Nat → α) (price : α) : List (Agent α) → Nat → PeriodOut α
  | [], pos => ⟨[], [], pos⟩
  | a :: rest, pos =>
    if rnd pos < a.tradeProb then
      let t := a.tick M rnd price (pos + 1)
      let r := specPeriod M rnd price rest t.pos
      ⟨t.flow :: r.flows, t.agent :: r.agents, r.pos⟩
    else
      let r := specPeriod M rnd price rest (pos + 1)
      ⟨r.flows, a :: r.agents, r.pos⟩

/-- The number of draws a `tick` of the agent takes: 1 for a `NoiseAgent`, 0 for
the other two classes. -/
def Agent.noiseCount : Agent α → Nat
  | .value _ => 0
  | .momentum _ => 0
  | .noise _ => 1

/-- What decides the draws an agent causes: its `tradeProb` and whether it is a
`NoiseAgent`. -/
def Agent.gateKey (a : Agent α) : α × Nat :=
  (a.tradeProb, a.noiseCount)

/-- Specification of the draws of one period started at cursor `pos`: the number of
noise agents that pass the gate. Each agent takes its gate draw at the cursor left
by the agents before it, and a noise agent that passes takes the next draw too. -/
def noisePasses (rnd : Nat → α) : List (Agent α) → Nat → Nat
  | [], _ => 0
  | a :: rest, pos =>
    if rnd pos < a.tradeProb then
      a.noiseCount + noisePasses rnd rest (pos + 1 + a.noiseCount)
    else
      noisePasses rnd rest (pos + 1)

/-- Specification of the draws of a replication entered at cursor `pos`: the number
of noise-agent participations in its first `n` periods. Period `n` starts at the
cursor `pos + n * A +` (participations so far), `A` being the number of agents. -/
def noiseParticipations (rnd : Nat → α) (agents : List (Agent α)) (pos : Nat) : Nat → Nat
  | 0 => 0
  | n + 1 =>
    noiseParticipations rnd agents pos n +
      noisePasses rnd agents (pos + n * agents.length + noiseParticipations rnd agents pos n)

/-- Invariant of a dealer of value agents between two periods. -/
def ValueInv (s : Sim ℝ) : Prop :=
  s.price = 1 ∧ s.net = 0 ∧ (∀ a ∈ s.agents, ∃ v : ValueAgent ℝ, a = .value v) ∧
    ∀ r ∈ s.simResults, r.price = 1

end Auxiliary

/-! ## Option pricing primitives (`black_scholes_calculation.cpp`)

These functions are modelled as fallible: the result `none` stands for a computation
in which some intermediate double is not a finite number (`inf`, `-inf` or NaN), as
after a division by zero, a logarithm of a number that is not positive, a square
root of a negative number or an overflow of `exp`. -/

section OptionDefs

/-- The `<cmath>` functions called by `black_scholes_calculation.cpp`; `none` where
the double result is not a finite number. -/
structure Cmath (α : Type) where
  exp : α → Option α
  log : α → Option α
  sqrt : α → Option α
  erfc : α → α

/-- The complementary error function `std::erfc` on the reals:
`2 / √π` times the integral of `exp (-t ^ 2)` over `t > x`. -/
noncomputable def erfc (x : ℝ) : ℝ :=
  2 / Real.sqrt Real.pi * ∫ t in Set.Ioi x, Real.exp (-1 * t ^ 2)

/-- The `<cmath>` functions of `black_scholes_calculation.cpp` on the real numbers:
`exp` overflows to `inf` when the exact value reaches `2 ^ 1024` and underflows as
`dexp` does; `log` is `-inf` at 0 and NaN below; `sqrt` is NaN below 0. -/
noncomputable def realCmath : Cmath ℝ :=
  { exp := fun x => if (2 : ℝ) ^ (1024 : ℕ) ≤ Real.exp x then none else some (dexp x)
    log := fun x => if 0 < x then some (Real.log x) else none
    sqrt := fun x => if 0 ≤ x then some (Real.sqrt x) else none
    erfc := erfc }

variable [LinearOrderedField α]

/-- `calc_discounted_call_intrinsic_value`. -/
def calc_discounted_call_intrinsic_value (C : Cmath α) (S K r T : α) : Option α := do
  let e ← C.exp (-1 * r * T)
  let discounted_intrinsic_value := (S - K) * e
  if discounted_intrinsic_value < 0 then pure 0 else pure discounted_intrinsic_value

/-- `calc_discounted_put_intrinsic_value`. -/
def calc_discounted_put_intrinsic_value (C : Cmath α) (S K r T : α) : Option α := do
  let e ← C.exp (-1 * r * T)
  let discounted_intrinsic_value := (K - S) * e
  if discounted_intrinsic_value < 0 then pure 0 else pure discounted_intrinsic_value

end OptionDefs

/-! ## Structure of the output vector -/

theorem dexp_nonneg (x : ℝ) : 0 ≤ dexp x := by
  unfold dexp
  split_ifs
  · exact le_refl _
  · exact (Real.exp_pos x).le

theorem dexp_of_nonneg (x : ℝ) (hx : 0 ≤ x) : dexp x = Real.exp x := by
  unfold dexp
  rw [if_neg]
  have h1 : (1 : ℝ) ≤ Real.exp x := Real.one_le_exp hx
  have h2 : (2 : ℝ) ^ (-1075 : ℤ) < 1 := by
    rw [zpow_neg]
    exact inv_lt_one_of_one_lt₀ (by norm_num)
  linarith

theorem dexp_zero : dexp 0 = 1 := by
  rw [dexp_of_nonneg 0 (le_refl _), Real.exp_zero]

theorem dexp_mono {x y : ℝ} (h : x ≤ y) : dexp x ≤ dexp y := by
  have he : Real.exp x ≤ Real.exp y := Real.exp_le_exp.2 h
  unfold dexp
  split_ifs with h1 h2 h2
  · exact le_refl _
  · exact (Real.exp_pos y).le
  · exact absurd (le_trans he h2) h1
  · exact he

/-- Below `-800` the exponential is under `2 ^ (-1075)`: the double result is `0.0`. -/
theorem dexp_eq_zero (x : ℝ) (hx : x ≤ -800) : dexp x = 0 := by
  have h1 : (2.7 : ℝ) < Real.exp 1 := lt_trans (by norm_num) Real.exp_one_gt_d9
  have h2 : (2 : ℝ) ^ (1075 : ℕ) ≤ Real.exp 800 := by
    have h3 : Real.exp 800 = Real.exp 1 ^ (800 : ℕ) := by
      rw [← Real.exp_nat_mul]
      norm_num
    rw [h3]
    calc (2 : ℝ) ^ (1075 : ℕ) ≤ (2.7 : ℝ) ^ (800 : ℕ) := by norm_num
      _ ≤ Real.exp 1 ^ (800 : ℕ) := pow_le_pow_left₀ (by norm_num) h1.le 800
  have h4 : Real.exp x ≤ (2 : ℝ) ^ (-1075 : ℤ) := by
    calc Real.exp x ≤ Real.exp (-800) := Real.exp_le_exp.2 hx
      _ = (Real.exp 800)⁻¹ := Real.exp_neg 800
      _ ≤ ((2 : ℝ) ^ (1075 : ℕ))⁻¹ := inv_anti₀ (by positivity) h2
      _ = (2 : ℝ) ^ (-1075 : ℤ) := by
        rw [zpow_neg]
        norm_cast
  unfold dexp
  rw [if_pos h4]

/-- From `-700` upwards the exponential is above `2 ^ (-1075)`: no underflow to zero. -/
theorem dexp_of_ge (x : ℝ) (hx : -700 ≤ x) : dexp x = Real.exp x := by
  have h1 : Real.exp 1 < (2.72 : ℝ) := lt_trans Real.exp_one_lt_d9 (by norm_num)
  have h2 : Real.exp 700 < (2 : ℝ) ^ (1075 : ℕ) := by
    have h3 : Real.exp 700 = Real.exp 1 ^ (700 : ℕ) := by
      rw [← Real.exp_nat_mul]
      norm_num
    rw [h3]
    calc Real.exp 1 ^ (700 : ℕ) ≤ (2.72 : ℝ) ^ (700 : ℕ) :=
          pow_le_pow_left₀ (Real.exp_pos 1).le h1.le 700
      _ < (2 : ℝ) ^ (1075 : ℕ) := by norm_num
  have h4 : (2 : ℝ) ^ (-1075 : ℤ) < Real.exp x := by
    calc (2 : ℝ) ^ (-1075 : ℤ) = ((2 : ℝ) ^ (1075 : ℕ))⁻¹ := by
          rw [zpow_neg]
          norm_cast
      _ < (Real.exp 700)⁻¹ := (inv_lt_inv₀ (by positivity) (Real.exp_pos _)).2 h2
      _ = Real.exp (-700) := (Real.exp_neg 700).symm
      _ ≤ Real.exp x := Real.exp_le_exp.2 hx
  unfold dexp
  rw [if_neg (not_le.2 h4)]

/-- Resetting twice is resetting once. -/
theorem Agent.reset_reset (a : Agent α) : a.reset.reset = a.reset := by
  cases a <;> rfl

section Structure

variable [LinearOrderedField α]

theorem afterPeriods_zero (M : Libm α) (rnd : Nat → α) (d : Dealer α) (i : Int) (s : Sim α) :
    afterPeriods M rnd d i s 0 = s := by
  simp [afterPeriods]

theorem afterPeriods_succ (M : Libm α) (rnd : Nat → α) (d : Dealer α) (i : Int) (s : Sim α)
    (n : Nat) :
    afterPeriods M rnd d i s (n + 1) = periodStep M rnd d i (afterPeriods M rnd d i s n) n := by
  simp [afterPeriods, List.range_succ, List.foldl_append]

theorem afterPeriods_simResults (M : Libm α) (rnd : Nat → α) (d : Dealer α) (i : Int)
    (s : Sim α) (n : Nat) :
    (afterPeriods M rnd d i s n).simResults =
      s.simResults ++ (List.range n).map fun (k : Nat) =>
        ⟨i, (k : Int), (afterPeriods M rnd d i s (k + 1)).price⟩ := by
  induction n with
  | zero => simp [afterPeriods_zero]
  | succ n ih =>
    rw [afterPeriods_succ, List.range_succ, List.map_append, ← List.append_assoc, ← ih]
    simp [periodStep, afterPeriods_succ]

theorem replication_eq (M : Libm α) (rnd : Nat → α) (d : Dealer α) (numPeriods : Int)
    (s : Sim α) (i : Nat) :
    replication M rnd d numPeriods s i =
      afterPeriods M rnd d i (replicationStart s i) numPeriods.toNat := rfl

theorem replication_simResults (M : Libm α) (rnd : Nat → α) (d : Dealer α) (numPeriods : Int)
    (s : Sim α) (i : Nat) :
    (replication M rnd d numPeriods s i).simResults =
      s.simResults ++ replicationRecords M rnd d numPeriods s i := by
  rw [replication_eq, afterPeriods_simResults]
  simp [replicationStart, replicationRecords]

theorem replicationRecords_length (M : Libm α) (rnd : Nat → α) (d : Dealer α)
    (numPeriods : Int) (s : Sim α) (i : Nat) :
    (replicationRecords M rnd d numPeriods s i).length = numPeriods.toNat + 1 := by
  simp [replicationRecords]

theorem runSimulation_eq (M : Libm α) (rnd : Nat → α) (d : Dealer α)
    (numSimulations numPeriods : Int) (pos : Nat) :
    d.runSimulation M rnd numSimulations numPeriods pos =
      afterReplications M rnd d numPeriods pos numSimulations.toNat := rfl

theorem afterReplications_succ (M : Libm α) (rnd : Nat → α) (d : Dealer α) (numPeriods : Int)
    (pos : Nat) (n : Nat) :
    afterReplications M rnd d numPeriods pos (n + 1) =
      replication M rnd d numPeriods (afterReplications M rnd d numPeriods pos n) n := by
  simp [afterReplications, List.range_succ, List.foldl_append]

theorem afterReplications_length (M : Libm α) (rnd : Nat → α) (d : Dealer α)
    (numPeriods : Int) (pos : Nat) (n : Nat) :
    (afterReplications M rnd d numPeriods pos n).simResults.length =
      n * (numPeriods.toNat + 1) := by
  induction n with
  | zero => simp [afterReplications]
  | succ n ih =>
    rw [afterReplications_succ, replication_simResults, List.length_append, ih,
      replicationRecords_length]
    ring

/-- The block of replication `i` sits at offset `i * (P + 1)` of the output. -/
theorem afterReplications_getElem? (M : Libm α) (rnd : Nat → α) (d : Dealer α)
    (numPeriods : Int) (pos : Nat) (n i m : Nat) (hi : i < n) (hm : m ≤ numPeriods.toNat) :
    (afterReplications M rnd d numPeriods pos n).simResults[i * (numPeriods.toNat + 1) + m]? =
      (replicationRecords M rnd d numPeriods
        (afterReplications M rnd d numPeriods pos i) i)[m]? := by
  induction n with
  | zero => omega
  | succ n ih =>
    rw [afterReplications_succ, replication_simResults]
    by_cases h : i < n
    · rw [List.getElem?_append_left, ih h]
      rw [afterReplications_length]
      calc i * (numPeriods.toNat + 1) + m < i * (numPeriods.toNat + 1) + (numPeriods.toNat + 1) :=
            by omega
        _ = (i + 1) * (numPeriods.toNat + 1) := by ring
        _ ≤ n * (numPeriods.toNat + 1) := Nat.mul_le_mul_right _ h
    · have hin : i = n := by omega
      subst hin
      rw [List.getElem?_append_right, afterReplications_length]
      · simp
      · rw [afterReplications_length]; omega

theorem replicationRecords_zero (M : Libm α) (rnd : Nat → α) (d : Dealer α)
    (numPeriods : Int) (s : Sim α) (i : Nat) :
    (replicationRecords M rnd d numPeriods s i)[0]? = some ⟨(i : Int), 0, 1⟩ := by
  simp [replicationRecords]
  norm_num

theorem replicationRecords_succ (M : Libm α) (rnd : Nat → α) (d : Dealer α)
    (numPeriods : Int) (s : Sim α) (i k : Nat) (hk : k < numPeriods.toNat) :
    (replicationRecords M rnd d numPeriods s i)[k + 1]? =
      some ⟨(i : Int), (k : Int),
        (afterPeriods M rnd d i (replicationStart s i) (k + 1)).price⟩ := by
  simp [replicationRecords, List.getElem?_range hk]

/-- What the loop over `k` records: the record pushed after period `k` of
replication `i` sits at position `i * (P + 1) + (k + 1)` and carries the period
index `k`. -/
theorem runSimulation_period_record (M : Libm α) (rnd : Nat → α) (d : Dealer α)
    (N P : Int) (pos : Nat) (i k : Nat) (hi : i < N.toNat) (hk : k < P.toNat) :
    ∃ price : α,
      (d.runSimulation M rnd N P pos).simResults[i * (P.toNat + 1) + (k + 1)]? =
        some ⟨(i : Int), (k : Int), price⟩ := by
  rw [runSimulation_eq, afterReplications_getElem? M rnd d P pos N.toNat i (k + 1) hi (by omega),
    replicationRecords_succ _ _ _ _ _ _ _ hk]
  exact ⟨_, rfl⟩

/-- Every replication of `runSimulation` is a pass of the loop body `replication`:
the record at position `i * (P + 1) + m` of the output is the `m`-th record pushed
by `replication` entered in the state left by the first `i` replications. -/
theorem runSimulation_getElem?_eq_replication (M : Libm α) (rnd : Nat → α) (d : Dealer α)
    (N P : Int) (pos : Nat) (i m : Nat) (hi : i < N.toNat) (hm : m ≤ P.toNat) :
    (d.runSimulation M rnd N P pos).simResults[i * (P.toNat + 1) + m]? =
      (replication M rnd d P (afterReplications M rnd d P pos i) i).simResults[
        (afterReplications M rnd d P pos i).simResults.length + m]? := by
  rw [runSimulation_eq, afterReplications_getElem? M rnd d P pos N.toNat i m hi hm,
    replication_simResults, List.getElem?_append_right (by omega)]
  simp

end Structure

/-! ## The state machine of `MomentumAgent` -/

section Momentum

variable [LinearOrderedField α]

/-- The literal `0.0`. -/
theorem lit_zero : (0.0 : α) = 0 := by norm_num

theorem MomentumAgent.tick_state (a : MomentumAgent α) (price : α) :
    (a.tick price).2.state = a.nextState price := rfl

theorem MomentumAgent.tick_flow (a : MomentumAgent α) (price : α) :
    (a.tick price).1 = a.flowOf (a.nextState price) := rfl

theorem MomentumAgent.nextState_ge (a : MomentumAgent α) (price : α) :
    a.state ≤ a.nextState price := by
  unfold MomentumAgent.nextState
  split_ifs <;> omega

theorem MomentumAgent.nextState_range (a : MomentumAgent α) (price : α)
    (h : 0 ≤ a.state ∧ a.state ≤ 3) : 0 ≤ a.nextState price ∧ a.nextState price ≤ 3 := by
  unfold MomentumAgent.nextState
  split_ifs <;> omega

theorem MomentumAgent.states_ge (a : MomentumAgent α) (prices : List α) :
    ∀ s ∈ a.states prices, a.state ≤ s := by
  induction prices generalizing a with
  | nil => simp [MomentumAgent.states]
  | cons p ps ih =>
    intro s hs
    simp only [MomentumAgent.states, List.mem_cons] at hs
    rcases hs with rfl | hs
    · exact le_refl _
    · exact le_trans (a.nextState_ge p) (ih (a.tick p).2 s hs)

theorem MomentumAgent.states_sorted (a : MomentumAgent α) (prices : List α) :
    (a.states prices).Sorted (· ≤ ·) := by
  induction prices generalizing a with
  | nil => simp [MomentumAgent.states]
  | cons p ps ih =>
    simp only [MomentumAgent.states, List.sorted_cons]
    exact ⟨fun s hs => le_trans (a.nextState_ge p) ((a.tick p).2.states_ge ps s hs),
      ih (a.tick p).2⟩

theorem MomentumAgent.states_range (a : MomentumAgent α) (prices : List α)
    (h : 0 ≤ a.state ∧ a.state ≤ 3) : ∀ s ∈ a.states prices, 0 ≤ s ∧ s ≤ 3 := by
  induction prices generalizing a with
  | nil => simpa [MomentumAgent.states] using h
  | cons p ps ih =>
    intro s hs
    simp only [MomentumAgent.states, List.mem_cons] at hs
    rcases hs with rfl | hs
    · exact h
    · exact ih (a.tick p).2 (a.nextState_range p h) s hs

/-- C4: a momentum agent in state 0, fed any finite sequence of prices, runs through
a non-decreasing sequence of states, all of them in `{0, 1, 2, 3}`; a `tick` in state
3 leaves the state at 3 and returns flow 0; `reset` sets the state to 0 from any
state. No relation between `entryPrice` and `exitPrice` is assumed. -/
theorem momentum_states_monotone (a : MomentumAgent α) (prices : List α) (h0 : a.state = 0) :
    (a.states prices).Sorted (· ≤ ·) ∧
      (∀ s ∈ a.states prices, s = 0 ∨ s = 1 ∨ s = 2 ∨ s = 3) ∧
      (∀ (b : MomentumAgent α) (p : α), b.state = 3 →
        (b.tick p).2.state = 3 ∧ (b.tick p).1 = 0) ∧
      ∀ b : MomentumAgent α, b.reset.state = 0 := by
  refine ⟨a.states_sorted prices, ?_, ?_, fun b => rfl⟩
  · intro s hs
    have := a.states_range prices (by omega) s hs
    omega
  · intro b p hb
    simp [MomentumAgent.tick, MomentumAgent.nextState, MomentumAgent.flowOf, hb, lit_zero]

/-- Witness for C4: entry above exit, prices going up and then down. -/
theorem momentum_states_monotone_witness :
    ((⟨1, 1, 2, 1, 0⟩ : MomentumAgent ℚ).state = 0) ∧
      ((⟨1, 1, 2, 1, 0⟩ : MomentumAgent ℚ).states [1, 3, 3, 1, 5]).Sorted (· ≤ ·) ∧
      (⟨1, 1, 2, 1, 0⟩ : MomentumAgent ℚ).states [1, 3, 3, 1, 5] = [0, 0, 1, 2, 3, 3] :=
  ⟨rfl, (momentum_states_monotone ⟨1, 1, 2, 1, 0⟩ [1, 3, 3, 1, 5] rfl).1, by decide⟩

/-- C5: the flow returned by `tick` is `tradeScale` when the state after the
transition step of this call is 1, `-3 * tradeScale` when it is 2, and 0 when it is
0 or 3. -/
theorem momentum_tick_flow (a : MomentumAgent α) (price : α) :
    ((a.tick price).2.state = 1 → (a.tick price).1 = a.tradeScale) ∧
      ((a.tick price).2.state = 2 → (a.tick price).1 = -3 * a.tradeScale) ∧
      ((a.tick price).2.state = 0 ∨ (a.tick price).2.state = 3 → (a.tick price).1 = 0) := by
  rw [MomentumAgent.tick_state, MomentumAgent.tick_flow]
  refine ⟨fun h => ?_, fun h => ?_, fun h => ?_⟩
  · simp [MomentumAgent.flowOf, h]
  · simp [MomentumAgent.flowOf, h]
    norm_num
  · rcases h with h | h <;> simp [MomentumAgent.flowOf, h, lit_zero]

/-- C6: one call of `tick` makes at most one transition, decided by strict
comparisons: from 0 to 1 iff `price > entryPrice`, from 1 to 2 iff
`price > exitPrice`, from 2 to 3 iff `price < entryPrice`, and no change otherwise.
With `entryPrice = exitPrice = 1`, a tick at price 1 in state 0 stays in state 0 with
flow 0, and two consecutive ticks at prices above 1 go to state 1 with flow
`tradeScale` and then to state 2 with flow `-3 * tradeScale`. -/
theorem momentum_tick_transition (a : MomentumAgent α) (price : α) :
    (a.state = 0 → (a.tick price).2.state = if price > a.entryPrice then 1 else 0) ∧
      (a.state = 1 → (a.tick price).2.state = if price > a.exitPrice then 2 else 1) ∧
      (a.state = 2 → (a.tick price).2.state = if price < a.entryPrice then 3 else 2) ∧
      (a.state ≠ 0 → a.state ≠ 1 → a.state ≠ 2 → (a.tick price).2.state = a.state) ∧
      ((a.tick price).2.state = a.state ∨ (a.tick price).2.state = a.state + 1) ∧
      ∀ tp ts : α,
        ((⟨tp, ts, 1, 1, 0⟩ : MomentumAgent α).tick 1).2.state = 0 ∧
        ((⟨tp, ts, 1, 1, 0⟩ : MomentumAgent α).tick 1).1 = 0 ∧
        ∀ p q : α, p > 1 → q > 1 →
          ((⟨tp, ts, 1, 1, 0⟩ : MomentumAgent α).tick p).2.state = 1 ∧
          ((⟨tp, ts, 1, 1, 0⟩ : MomentumAgent α).tick p).1 = ts ∧
          (((⟨tp, ts, 1, 1, 0⟩ : MomentumAgent α).tick p).2.tick q).2.state = 2 ∧
          (((⟨tp, ts, 1, 1, 0⟩ : MomentumAgent α).tick p).2.tick q).1 = -3 * ts := by
  refine ⟨fun h => ?_, fun h => ?_, fun h => ?_, fun h0 h1 h2 => ?_, ?_, fun tp ts => ?_⟩
  · simp only [MomentumAgent.tick_state, MomentumAgent.nextState, h]
    simp
  · simp only [MomentumAgent.tick_state, MomentumAgent.nextState, h]
    simp
  · simp only [MomentumAgent.tick_state, MomentumAgent.nextState, h]
    simp
  · simp [MomentumAgent.tick_state, MomentumAgent.nextState, h0, h1, h2]
  · rw [MomentumAgent.tick_state]
    unfold MomentumAgent.nextState
    split_ifs <;> omega
  · refine ⟨?_, ?_, fun p q hp hq => ?_⟩
    · simp [MomentumAgent.tick, MomentumAgent.nextState]
    · simp [MomentumAgent.tick, MomentumAgent.nextState, MomentumAgent.flowOf, lit_zero]
    · simp [MomentumAgent.tick, MomentumAgent.nextState, MomentumAgent.flowOf, hp, hq]
      norm_num

end Momentum

/-! ## The cumulative net flow as the specification words it -/

section CumulativeFlow

variable [LinearOrderedField α]

theorem foldl_pollAgent_eq (M : Libm α) (rnd : Nat → α) (price : α) (agents : List (Agent α))
    (net : α) (pos : Nat) (acc : List (Agent α)) :
    agents.foldl (pollAgent M rnd price) ⟨net, pos, acc⟩ =
      ⟨net + (specPeriod M rnd price agents pos).flows.sum,
        (specPeriod M rnd price agents pos).pos,
        acc ++ (specPeriod M rnd price agents pos).agents⟩ := by
  induction agents generalizing net pos acc with
  | nil => simp [specPeriod]
  | cons a rest ih =>
    rw [List.foldl_cons]
    by_cases h : rnd pos < a.tradeProb
    · simp [pollAgent, specPeriod, h, ih, add_assoc]
    · simp [pollAgent, specPeriod, h, ih]

theorem pollAgents_eq (M : Libm α) (rnd : Nat → α) (price : α) (agents : List (Agent α))
    (net : α) (pos : Nat) :
    pollAgents M rnd price agents net pos =
      ⟨net + (specPeriod M rnd price agents pos).flows.sum,
        (specPeriod M rnd price agents pos).pos,
        (specPeriod M rnd price agents pos).agents⟩ := by
  rw [pollAgents, foldl_pollAgent_eq]
  simp

end CumulativeFlow

/-! ## Claims about `Dealer::runSimulation` -/

section RunSimulation

variable [LinearOrderedField α]

/-- C1 (the code at `numSimulations = 1`, `numPeriods = 1`): for every dealer and
every random stream the two records returned are the start record with
`(sim, period) = (0, 0)` and the record pushed after period `k = 0`, which again
carries `(sim, period) = (0, 0)`: the loop pushes `Result(i, k, price)`, so the
period index `1 = numPeriods` does not occur. -/
theorem runSimulation_one_one_indices (M : Libm α) (rnd : Nat → α) (d : Dealer α) (pos : Nat) :
    ((d.runSimulation M rnd 1 1 pos).simResults.map fun r => (r.sim, r.period)) =
      [(0, 0), (0, 0)] := by
  simp [Dealer.runSimulation, replication, periodStep, List.range_succ]

/-- C2: for `N ≥ 0` and `P ≥ 0`, `runSimulation(N, P)` returns exactly `N * (P + 1)`
records, and the record at position `i * (P + 1)` is `(sim = i, period = 0, price = 1)`
for every `i < N`. -/
theorem runSimulation_length_and_start (M : Libm α) (rnd : Nat → α) (d : Dealer α)
    (N P : Int) (pos : Nat) (hN : 0 ≤ N) (hP : 0 ≤ P) :
    ((d.runSimulation M rnd N P pos).simResults.length : Int) = N * (P + 1) ∧
      ∀ i : Nat, (i : Int) < N →
        (d.runSimulation M rnd N P pos).simResults[i * (P.toNat + 1)]? =
          some ⟨(i : Int), 0, 1⟩ := by
  constructor
  · rw [runSimulation_eq, afterReplications_length]
    push_cast
    rw [Int.toNat_of_nonneg hN, Int.toNat_of_nonneg hP]
  · intro i hi
    have h := afterReplications_getElem? M rnd d P pos N.toNat i 0 (by omega) (by omega)
    rw [Nat.add_zero] at h
    rw [runSimulation_eq, h, replicationRecords_zero]

/-- Witness for C2: a dealer with one noise agent, two replications of three periods. -/
theorem runSimulation_length_and_start_witness :
    (0 : Int) ≤ 2 ∧ (0 : Int) ≤ 3 ∧
      ((((⟨[.noise (NoiseAgent.new 1)], 1⟩ : Dealer ℝ).runSimulation realMath (fun _ => 0)
          2 3 0).simResults.length : Int) = 2 * (3 + 1) ∧
        ∀ i : Nat, (i : Int) < 2 →
          ((⟨[.noise (NoiseAgent.new 1)], 1⟩ : Dealer ℝ).runSimulation realMath (fun _ => 0)
            2 3 0).simResults[i * ((3 : Int).toNat + 1)]? = some ⟨(i : Int), 0, 1⟩) :=
  ⟨by decide, by decide,
    runSimulation_length_and_start realMath (fun _ => 0) ⟨[.noise (NoiseAgent.new 1)], 1⟩
      2 3 0 (by decide) (by decide)⟩

theorem periodStep_congr (M : Libm α) (rnd : Nat → α) (d d' : Dealer α) (i : Int)
    (hps : d.priceScale = d'.priceScale) :
    periodStep M rnd d i = periodStep M rnd d' i := by
  funext s k
  simp [periodStep, Dealer.getPrice, hps]

theorem replication_congr (M : Libm α) (rnd : Nat → α) (d d' : Dealer α) (P : Int)
    (s s' : Sim α) (i : Nat) (hps : d.priceScale = d'.priceScale)
    (hag : s.agents.map Agent.reset = s'.agents.map Agent.reset) (hpos : s.pos = s'.pos)
    (hres : s.simResults = s'.simResults) :
    replication M rnd d P s i = replication M rnd d' P s' i := by
  simp only [replication, periodStep_congr M rnd d d' i hps, hag, hpos, hres]

theorem afterReplications_congr (M : Libm α) (rnd : Nat → α) (d d' : Dealer α) (P : Int)
    (pos : Nat) (hps : d.priceScale = d'.priceScale)
    (hag : d.agents.map Agent.reset = d'.agents.map Agent.reset) (n : Nat) :
    (afterReplications M rnd d P pos n).agents.map Agent.reset =
        (afterReplications M rnd d' P pos n).agents.map Agent.reset ∧
      (afterReplications M rnd d P pos n).pos = (afterReplications M rnd d' P pos n).pos ∧
      (afterReplications M rnd d P pos n).simResults =
        (afterReplications M rnd d' P pos n).simResults := by
  induction n with
  | zero => simpa [afterReplications] using hag
  | succ n ih =>
    rw [afterReplications_succ, afterReplications_succ,
      replication_congr M rnd d d' P _ _ n hps ih.1 ih.2.1 ih.2.2]
    exact ⟨rfl, rfl, rfl⟩

/-- C7: the records returned by `runSimulation` depend only on the price scale, the
agents up to the internal state of the momentum agents (two agent lists that agree
after `reset`), `numSimulations`, `numPeriods` and the random stream (with its
cursor). Each pass of the loop over `i` gives the same result as if all agents had
been reset on entry, and every momentum agent has state 0 when the loop over the
periods starts. -/
theorem runSimulation_deterministic (M : Libm α) (rnd : Nat → α) (d d' : Dealer α)
    (N P : Int) (pos : Nat) (hps : d.priceScale = d'.priceScale)
    (hag : d.agents.map Agent.reset = d'.agents.map Agent.reset) :
    (d.runSimulation M rnd N P pos).simResults = (d'.runSimulation M rnd N P pos).simResults ∧
      (∀ (s : Sim α) (i : Nat),
        replication M rnd d P s i =
          replication M rnd d P { s with agents := s.agents.map Agent.reset } i) ∧
      ∀ (s : Sim α) (m : MomentumAgent α),
        Agent.momentum m ∈ s.agents.map Agent.reset → m.state = 0 := by
  refine ⟨?_, fun s i => ?_, fun s m hm => ?_⟩
  · rw [runSimulation_eq, runSimulation_eq]
    exact (afterReplications_congr M rnd d d' P pos hps hag N.toNat).2.2
  · refine replication_congr M rnd d d P s _ i rfl ?_ rfl rfl
    simp [Agent.reset_reset]
  · rw [List.mem_map] at hm
    obtain ⟨a, _, ha⟩ := hm
    cases a with
    | value v => simp [Agent.reset] at ha
    | momentum b =>
      simp only [Agent.reset, Agent.momentum.injEq] at ha
      rw [← ha]
      rfl
    | noise v => simp [Agent.reset] at ha

/-- Witness for C7: the same momentum agent, once left in state 3 and once fresh. -/
theorem runSimulation_deterministic_witness :
    ((⟨[.momentum ⟨1, 1, 1, 2, 3⟩], 1⟩ : Dealer ℝ).runSimulation realMath (fun _ => 0) 2 2
        0).simResults =
      ((⟨[.momentum ⟨1, 1, 1, 2, 0⟩], 1⟩ : Dealer ℝ).runSimulation realMath (fun _ => 0) 2 2
        0).simResults :=
  (runSimulation_deterministic realMath (fun _ => 0) ⟨[.momentum ⟨1, 1, 1, 2, 3⟩], 1⟩
    ⟨[.momentum ⟨1, 1, 1, 2, 0⟩], 1⟩ 2 2 0 rfl rfl).1

/-- C8 (the code at a gate draw `u = 2`): a dealer whose only agent is
`NoiseAgent(1.0)` polls it with every draw of the stream equal to 2. The gate
`u < tradeProb` is `2 < 1`, so `tick` is not called: `net` stays 0 (participation
would have added `2 * 1`) and only the gate draw is consumed; after
`runSimulation(1, 1)` the net flow is still 0 and the cursor has moved by one. -/
theorem noise_agent_gate_fails (M : Libm α) :
    pollAgents M (fun _ => 2) 1 [.noise (NoiseAgent.new 1)] 0 0 =
        ⟨0, 1, [.noise (NoiseAgent.new 1)]⟩ ∧
      ((⟨[.noise (NoiseAgent.new 1)], 1⟩ : Dealer α).runSimulation M (fun _ => 2) 1 1 0).net
        = 0 ∧
      ((⟨[.noise (NoiseAgent.new 1)], 1⟩ : Dealer α).runSimulation M (fun _ => 2) 1 1 0).pos
        = 1 := by
  have h : ¬ ((2 : α) < 1) := by norm_num
  refine ⟨?_, ?_, ?_⟩ <;>
    simp [Dealer.runSimulation, replication, periodStep, pollAgents, pollAgent, Agent.tradeProb,
      NoiseAgent.new, Agent.reset, List.range_succ, h]

end RunSimulation

/-! ## `ValueAgent::tick` over the reals -/

section Value

/-- At price 1 the logarithm vanishes and the two halves cancel. -/
theorem ValueAgent.tick_one (a : ValueAgent ℝ) : a.tick realMath 1 = 0 := by
  simp only [ValueAgent.tick, realMath, Real.log_one]
  norm_num

theorem foldl_pollAgent_value (rnd : Nat → ℝ) (agents : List (Agent ℝ))
    (hval : ∀ a ∈ agents, ∃ v : ValueAgent ℝ, a = .value v) (pos : Nat)
    (acc : List (Agent ℝ)) (hacc : ∀ a ∈ acc, ∃ v : ValueAgent ℝ, a = .value v) :
    (agents.foldl (pollAgent realMath rnd 1) ⟨0, pos, acc⟩).net = 0 ∧
      ∀ a ∈ (agents.foldl (pollAgent realMath rnd 1) ⟨0, pos, acc⟩).agents,
        ∃ v : ValueAgent ℝ, a = .value v := by
  induction agents generalizing pos acc with
  | nil => exact ⟨rfl, hacc⟩
  | cons a rest ih =>
    obtain ⟨v, rfl⟩ := hval a (List.mem_cons_self _ _)
    have hrest : ∀ b ∈ rest, ∃ w : ValueAgent ℝ, b = .value w :=
      fun b hb => hval b (List.mem_cons_of_mem _ hb)
    have hacc2 : ∀ b ∈ acc ++ [Agent.value v], ∃ w : ValueAgent ℝ, b = .value w := by
      intro b hb
      rcases List.mem_append.1 hb with hb | hb
      · exact hacc b hb
      · exact ⟨v, by simpa using hb⟩
    rw [List.foldl_cons]
    by_cases h : rnd pos < (Agent.value v).tradeProb
    · simp only [pollAgent, h, if_true, Agent.tick, ValueAgent.tick_one, add_zero]
      exact ih hrest _ _ hacc2
    · simp only [pollAgent, h, if_false]
      exact ih hrest _ _ hacc2

theorem periodStep_valueInv (rnd : Nat → ℝ) (d : Dealer ℝ) (i : Int) (s : Sim ℝ) (k : Nat)
    (h : ValueInv s) : ValueInv (periodStep realMath rnd d i s k) := by
  obtain ⟨hp, hn, hag, hres⟩ := h
  have hpoll := foldl_pollAgent_value rnd s.agents hag s.pos [] (by simp)
  have hprice : d.getPrice realMath (pollAgents realMath rnd s.price s.agents s.net s.pos).net
      = 1 := by
    rw [hp, hn, pollAgents, hpoll.1]
    simp [Dealer.getPrice, realMath, dexp_zero]
  refine ⟨hprice, ?_, ?_, ?_⟩
  · simp only [periodStep]
    rw [hp, hn, pollAgents, hpoll.1]
  · simp only [periodStep]
    rw [hp, hn, pollAgents]
    exact hpoll.2
  · intro r hr
    simp only [periodStep, List.mem_append, List.mem_singleton] at hr
    rcases hr with hr | hr
    · exact hres r hr
    · rw [hr]
      exact hprice

theorem afterPeriods_valueInv (rnd : Nat → ℝ) (d : Dealer ℝ) (i : Int) (s : Sim ℝ)
    (h : ValueInv s) (n : Nat) : ValueInv (afterPeriods realMath rnd d i s n) := by
  induction n with
  | zero => rwa [afterPeriods_zero]
  | succ n ih =>
    rw [afterPeriods_succ]
    exact periodStep_valueInv rnd d i _ n ih

theorem replication_value (rnd : Nat → ℝ) (d : Dealer ℝ) (P : Int) (s : Sim ℝ) (i : Nat)
    (hag : ∀ a ∈ s.agents, ∃ v : ValueAgent ℝ, a = .value v)
    (hres : ∀ r ∈ s.simResults, r.price = 1) :
    ValueInv (replication realMath rnd d P s i) := by
  rw [replication_eq]
  apply afterPeriods_valueInv
  refine ⟨rfl, rfl, ?_, ?_⟩
  · intro a ha
    simp only [replicationStart, List.mem_map] at ha
    obtain ⟨b, hb, rfl⟩ := ha
    obtain ⟨v, rfl⟩ := hag b hb
    exact ⟨v, rfl⟩
  · intro r hr
    simp only [replicationStart, List.mem_append, List.mem_singleton] at hr
    rcases hr with hr | hr
    · exact hres r hr
    · rw [hr]
      norm_num

theorem afterReplications_value (rnd : Nat → ℝ) (d : Dealer ℝ) (P : Int) (pos : Nat)
    (hval : ∀ a ∈ d.agents, ∃ v : ValueAgent ℝ, a = .value v) (n : Nat) :
    (∀ a ∈ (afterReplications realMath rnd d P pos n).agents,
        ∃ v : ValueAgent ℝ, a = .value v) ∧
      ∀ r ∈ (afterReplications realMath rnd d P pos n).simResults, r.price = 1 := by
  induction n with
  | zero => simpa [afterReplications] using hval
  | succ n ih =>
    rw [afterReplications_succ]
    have h := replication_value rnd d P _ n ih.1 ih.2
    exact ⟨h.2.2.1, h.2.2.2⟩

/-- C10: `ValueAgent::tick(1.0)` is 0 for every `tradeScale`, and a dealer all of
whose agents are value agents records the price 1 in every record of every
replication, for every random stream, `numSimulations` and `numPeriods`. -/
theorem value_dealer_price_one (rnd : Nat → ℝ) (d : Dealer ℝ) (N P : Int) (pos : Nat)
    (hval : ∀ a ∈ d.agents, ∃ v : ValueAgent ℝ, a = .value v) :
    (∀ v : ValueAgent ℝ, v.tick realMath 1 = 0) ∧
      ∀ r ∈ (d.runSimulation realMath rnd N P pos).simResults, r.price = 1 := by
  refine ⟨ValueAgent.tick_one, ?_⟩
  rw [runSimulation_eq]
  exact (afterReplications_value rnd d P pos hval N.toNat).2

/-- Witness for C10: two value agents, three replications of four periods. -/
theorem value_dealer_price_one_witness :
    (∀ a ∈ [Agent.value (⟨1 / 2, 3⟩ : ValueAgent ℝ), Agent.value ⟨1 / 4, 5⟩],
        ∃ v : ValueAgent ℝ, a = .value v) ∧
      ∀ r ∈ ((⟨[.value ⟨1 / 2, 3⟩, .value ⟨1 / 4, 5⟩], 1⟩ : Dealer ℝ).runSimulation realMath
        (fun n => (n : ℝ) - 2) 3 4 0).simResults, r.price = 1 :=
  ⟨by simp,
    (value_dealer_price_one (fun n => (n : ℝ) - 2) ⟨[.value ⟨1 / 2, 3⟩, .value ⟨1 / 4, 5⟩], 1⟩
      3 4 0 (by simp)).2⟩

end Value

/-! ## The price law over the reals -/

section PriceLaw

theorem getPrice_real (d : Dealer ℝ) (net : ℝ) :
    d.getPrice realMath net = dexp (d.priceScale * net) := rfl

/-- C11 as stated fails: with `priceScale = 0` the price is 1 at `net = 0` and at
`net = 1`; with `priceScale = -1` the price at `net = 1` is below the price at
`net = 0`; and with `priceScale = 1` the prices at `net = -900` and `net = -800` are
both `0.0` (underflow of `exp`), so the price is not strictly increasing either. -/
theorem getPrice_not_increasing :
    ((0 : ℝ) < 1 ∧
        ¬ ((⟨[], 0⟩ : Dealer ℝ).getPrice realMath 0 < (⟨[], 0⟩ : Dealer ℝ).getPrice realMath 1)) ∧
      (⟨[], -1⟩ : Dealer ℝ).getPrice realMath 1 < (⟨[], -1⟩ : Dealer ℝ).getPrice realMath 0 ∧
      ((-900 : ℝ) < -800 ∧
        (⟨[], 1⟩ : Dealer ℝ).getPrice realMath (-900) = 0 ∧
        (⟨[], 1⟩ : Dealer ℝ).getPrice realMath (-800) = 0) := by
  refine ⟨⟨one_pos, ?_⟩, ?_, by norm_num, ?_, ?_⟩
  · simp [getPrice_real, dexp_zero]
  · simp only [getPrice_real]
    rw [dexp_of_ge _ (by norm_num), dexp_of_ge _ (by norm_num)]
    apply Real.exp_lt_exp.2
    norm_num
  · simp only [getPrice_real]
    exact dexp_eq_zero _ (by norm_num)
  · simp only [getPrice_real]
    exact dexp_eq_zero _ (by norm_num)

/-- C11 amended: `getPrice 0 = 1` for every `priceScale`; for `priceScale ≥ 0` the
price is non-decreasing in `net` (`net1 ≤ net2` implies
`getPrice net1 ≤ getPrice net2`), for `priceScale ≤ 0` it is non-increasing. -/
theorem getPrice_zero_and_monotone (d : Dealer ℝ) :
    d.getPrice realMath 0 = 1 ∧
      (0 ≤ d.priceScale → ∀ net1 net2 : ℝ, net1 ≤ net2 →
        d.getPrice realMath net1 ≤ d.getPrice realMath net2) ∧
      (d.priceScale ≤ 0 → ∀ net1 net2 : ℝ, net1 ≤ net2 →
        d.getPrice realMath net2 ≤ d.getPrice realMath net1) := by
  refine ⟨by simp [getPrice_real, dexp_zero], fun h n1 n2 hn => ?_, fun h n1 n2 hn => ?_⟩
  · simp only [getPrice_real]
    exact dexp_mono (mul_le_mul_of_nonneg_left hn h)
  · simp only [getPrice_real]
    exact dexp_mono (mul_le_mul_of_nonpos_left hn h)

/-- Witness for C11 amended: the dealer of `trade_simulation.cpp`, `priceScale = 1`. -/
theorem getPrice_zero_and_monotone_witness :
    (0 : ℝ) ≤ (⟨[], 1⟩ : Dealer ℝ).priceScale ∧ (0 : ℝ) ≤ 1 ∧
      (⟨[], 1⟩ : Dealer ℝ).getPrice realMath 0 ≤ (⟨[], 1⟩ : Dealer ℝ).getPrice realMath 1 :=
  ⟨zero_le_one, zero_le_one, (getPrice_zero_and_monotone ⟨[], 1⟩).2.1 zero_le_one 0 1 zero_le_one⟩

end PriceLaw

/-! ## Degenerate inputs: no agents, no periods, no replications -/

section Degenerate

variable [LinearOrderedField α]

theorem afterPeriods_nil (M : Libm α) (rnd : Nat → α) (d : Dealer α) (i : Int) (s : Sim α)
    (hs : s.agents = []) (n : Nat) :
    (afterPeriods M rnd d i s n).agents = [] ∧ (afterPeriods M rnd d i s n).pos = s.pos ∧
      (afterPeriods M rnd d i s n).net = s.net := by
  induction n with
  | zero => simp [afterPeriods_zero, hs]
  | succ n ih =>
    rw [afterPeriods_succ]
    simp [periodStep, pollAgents, ih.1, ih.2.1, ih.2.2]

theorem afterReplications_nil (M : Libm α) (rnd : Nat → α) (d : Dealer α) (P : Int)
    (pos : Nat) (hd : d.agents = []) (n : Nat) :
    (afterReplications M rnd d P pos n).agents = [] ∧
      (afterReplications M rnd d P pos n).pos = pos := by
  induction n with
  | zero => simp [afterReplications, hd]
  | succ n ih =>
    rw [afterReplications_succ, replication_eq]
    have h := afterPeriods_nil M rnd d n
      (replicationStart (afterReplications M rnd d P pos n) n) (by simp [replicationStart, ih.1])
      P.toNat
    exact ⟨h.1, by rw [h.2.1]; simpa [replicationStart] using ih.2⟩

theorem afterReplications_no_periods (M : Libm α) (rnd : Nat → α) (d : Dealer α) (P : Int)
    (pos : Nat) (hP : P ≤ 0) (n : Nat) :
    (afterReplications M rnd d P pos n).simResults =
        (List.range n).map (fun (i : Nat) => (⟨(i : Int), 0, 1⟩ : Result α)) ∧
      (afterReplications M rnd d P pos n).pos = pos := by
  have hP0 : P.toNat = 0 := Int.toNat_eq_zero.2 hP
  induction n with
  | zero => simp [afterReplications]
  | succ n ih =>
    rw [afterReplications_succ, replication_eq, hP0, afterPeriods_zero]
    refine ⟨?_, by simpa [replicationStart] using ih.2⟩
    simp only [replicationStart, ih.1, List.range_succ, List.map_append, List.map_cons,
      List.map_nil]
    norm_num

/-- C14: a dealer without agents never draws from the random stream (the cursor
after `runSimulation` is the cursor before, and so it is after any number of
periods of any replication), its net flow is 0 after any number of periods of any
replication, and every record it returns has price 1; for every `priceScale`,
`numSimulations` and `numPeriods`. -/
theorem empty_dealer_constant (priceScale : ℝ) (rnd : Nat → ℝ) (N P : Int) (pos : Nat) :
    ((⟨[], priceScale⟩ : Dealer ℝ).runSimulation realMath rnd N P pos).pos = pos ∧
      (∀ i n : Nat,
        (afterPeriods realMath rnd ⟨[], priceScale⟩ i
          (replicationStart (afterReplications realMath rnd ⟨[], priceScale⟩ P pos i) i)
          n).net = 0 ∧
        (afterPeriods realMath rnd ⟨[], priceScale⟩ i
          (replicationStart (afterReplications realMath rnd ⟨[], priceScale⟩ P pos i) i)
          n).pos = pos) ∧
      ∀ r ∈ ((⟨[], priceScale⟩ : Dealer ℝ).runSimulation realMath rnd N P pos).simResults,
        r.price = 1 := by
  refine ⟨?_, fun i n => ?_, ?_⟩
  · rw [runSimulation_eq]
    exact (afterReplications_nil realMath rnd ⟨[], priceScale⟩ P pos rfl N.toNat).2
  · have h0 := afterReplications_nil realMath rnd ⟨[], priceScale⟩ P pos rfl i
    have h := afterPeriods_nil realMath rnd ⟨[], priceScale⟩ i
      (replicationStart (afterReplications realMath rnd ⟨[], priceScale⟩ P pos i) i)
      (by simp [replicationStart, h0.1]) n
    refine ⟨by rw [h.2.2]; rfl, ?_⟩
    rw [h.2.1]
    simpa [replicationStart] using h0.2
  · rw [runSimulation_eq]
    exact (afterReplications_value rnd ⟨[], priceScale⟩ P pos (by simp) N.toNat).2

/-- C16: with `numPeriods ≤ 0` the call returns the start records
`(0, 0, 1), ..., (N - 1, 0, 1)` only (none for `N ≤ 0`), so `N` records for
`N ≥ 0`, and leaves the stream cursor where it was; with `numSimulations ≤ 0` it
returns no record, leaves every agent as it was (no `reset`) and draws nothing. -/
theorem runSimulation_degenerate (M : Libm α) (rnd : Nat → α) (d : Dealer α) (N P : Int)
    (pos : Nat) :
    (P ≤ 0 →
        (d.runSimulation M rnd N P pos).simResults =
          (List.range N.toNat).map (fun (i : Nat) => (⟨(i : Int), 0, 1⟩ : Result α)) ∧
        (d.runSimulation M rnd N P pos).pos = pos ∧
        (0 ≤ N → ((d.runSimulation M rnd N P pos).simResults.length : Int) = N)) ∧
      (N ≤ 0 →
        (d.runSimulation M rnd N P pos).simResults = [] ∧
        (d.runSimulation M rnd N P pos).agents = d.agents ∧
        (d.runSimulation M rnd N P pos).pos = pos) := by
  constructor
  · intro hP
    rw [runSimulation_eq]
    have h := afterReplications_no_periods M rnd d P pos hP N.toNat
    refine ⟨h.1, h.2, fun hN => ?_⟩
    rw [h.1]
    simp [Int.toNat_of_nonneg hN]
  · intro hN
    have hN0 : N.toNat = 0 := Int.toNat_eq_zero.2 hN
    rw [runSimulation_eq, hN0]
    simp [afterReplications]

/-- Witness for C16: two replications of `-1` periods, and `0` replications with a
momentum agent left in state 3. -/
theorem runSimulation_degenerate_witness :
    ((-1 : Int) ≤ 0 ∧ (0 : Int) ≤ 2 ∧
        ((⟨[.noise (NoiseAgent.new 1)], 1⟩ : Dealer ℝ).runSimulation realMath (fun _ => 0)
          2 (-1) 0).simResults = [⟨0, 0, 1⟩, ⟨1, 0, 1⟩]) ∧
      ((0 : Int) ≤ 0 ∧
        ((⟨[.momentum ⟨1, 1, 1, 2, 3⟩], 1⟩ : Dealer ℝ).runSimulation realMath (fun _ => 0)
          0 5 0).agents = [.momentum ⟨1, 1, 1, 2, 3⟩]) :=
  ⟨⟨by decide, by decide,
      by simpa [List.range_succ] using
        ((runSimulation_degenerate realMath (fun _ => 0)
          (⟨[.noise (NoiseAgent.new 1)], 1⟩ : Dealer ℝ) 2 (-1) 0).1 (by decide)).1⟩,
    ⟨le_refl _,
      ((runSimulation_degenerate realMath (fun _ => 0)
        (⟨[.momentum ⟨1, 1, 1, 2, 3⟩], 1⟩ : Dealer ℝ) 0 5 0).2 (le_refl _)).2.1⟩⟩

/-- C12 (the code at the scenario): `Dealer(1.0)` with the single agent
`NoiseAgent(0)`, `runSimulation(1, 3)`. For every random stream the four records
are `(0, 0, 1), (0, 0, 1), (0, 1, 1), (0, 2, 1)`: the prices are all 1, but the
records pushed after the periods `k = 0, 1, 2` carry the period indices `0, 1, 2`. -/
theorem zero_noise_scenario (rnd : Nat → ℝ) (pos : Nat) :
    ((⟨[.noise (NoiseAgent.new 0)], 1⟩ : Dealer ℝ).runSimulation realMath rnd 1 3
        pos).simResults =
      [⟨0, 0, 1⟩, ⟨0, 0, 1⟩, ⟨0, 1, 1⟩, ⟨0, 2, 1⟩] := by
  have hpoll : ∀ q : Nat,
      (pollAgents realMath rnd 1 [Agent.noise (NoiseAgent.new (0 : ℝ))] 0 q).net = 0 ∧
      (pollAgents realMath rnd 1 [Agent.noise (NoiseAgent.new (0 : ℝ))] 0 q).agents =
        [Agent.noise (NoiseAgent.new (0 : ℝ))] := by
    intro q
    by_cases h : rnd q < 1 <;>
      simp [pollAgents, pollAgent, Agent.tradeProb, NoiseAgent.new, Agent.tick, NoiseAgent.tick, h]
  have hstep : ∀ (s : Sim ℝ) (k : Nat), s.price = 1 → s.net = 0 →
      s.agents = [Agent.noise (NoiseAgent.new (0 : ℝ))] →
      (periodStep realMath rnd ⟨[.noise (NoiseAgent.new 0)], 1⟩ 0 s k).price = 1 ∧
      (periodStep realMath rnd ⟨[.noise (NoiseAgent.new 0)], 1⟩ 0 s k).net = 0 ∧
      (periodStep realMath rnd ⟨[.noise (NoiseAgent.new 0)], 1⟩ 0 s k).agents =
        [Agent.noise (NoiseAgent.new (0 : ℝ))] := by
    intro s k hp hn ha
    simp only [periodStep, hp, hn, ha, (hpoll s.pos).1, (hpoll s.pos).2, getPrice_real]
    simp [dexp_zero]
  have hinv : ∀ (s : Sim ℝ) (n : Nat), s.price = 1 → s.net = 0 →
      s.agents = [Agent.noise (NoiseAgent.new (0 : ℝ))] →
      (afterPeriods realMath rnd ⟨[.noise (NoiseAgent.new 0)], 1⟩ 0 s n).price = 1 ∧
      (afterPeriods realMath rnd ⟨[.noise (NoiseAgent.new 0)], 1⟩ 0 s n).net = 0 ∧
      (afterPeriods realMath rnd ⟨[.noise (NoiseAgent.new 0)], 1⟩ 0 s n).agents =
        [Agent.noise (NoiseAgent.new (0 : ℝ))] := by
    intro s n hp hn ha
    induction n with
    | zero => simp [afterPeriods_zero, hp, hn, ha]
    | succ n ih =>
      rw [afterPeriods_succ]
      exact hstep _ n ih.1 ih.2.1 ih.2.2
  have hval : ∀ n : Nat,
      (afterPeriods realMath rnd ⟨[.noise (NoiseAgent.new 0)], 1⟩ 0
        (replicationStart
          (afterReplications realMath rnd ⟨[.noise (NoiseAgent.new 0)], 1⟩ 3 pos 0) 0) n).price
        = 1 := fun n => (hinv _ n rfl rfl (by simp [replicationStart, afterReplications,
          Agent.reset])).1
  rw [runSimulation_eq, Int.toNat_one, afterReplications_succ, replication_simResults]
  simp only [replicationRecords, Nat.cast_zero, hval]
  have h3 : (3 : Int).toNat = 3 := rfl
  rw [h3]
  norm_num [afterReplications, List.range_succ]

end Degenerate

/-! ## Consumption of the random stream -/

/-- `reset` changes neither `tradeProb` nor the class of an agent. -/
theorem Agent.reset_gateKey (a : Agent α) : a.reset.gateKey = a.gateKey := by
  cases a <;> simp [Agent.reset, Agent.gateKey, Agent.tradeProb, Agent.noiseCount,
    MomentumAgent.reset]

section Draws

variable [LinearOrderedField α]

theorem Agent.tick_gateKey (M : Libm α) (rnd : Nat → α) (price : α) (q : Nat) (a : Agent α) :
    (a.tick M rnd price q).agent.gateKey = a.gateKey ∧
      (a.tick M rnd price q).pos = q + a.noiseCount := by
  cases a <;> simp [Agent.tick, Agent.gateKey, Agent.tradeProb, Agent.noiseCount,
    MomentumAgent.tick, NoiseAgent.tick]

theorem noisePasses_congr (rnd : Nat → α) (as bs : List (Agent α)) (pos : Nat)
    (h : as.map Agent.gateKey = bs.map Agent.gateKey) :
    noisePasses rnd as pos = noisePasses rnd bs pos := by
  induction as generalizing bs pos with
  | nil =>
    cases bs with
    | nil => rfl
    | cons b bs => simp at h
  | cons a as ih =>
    cases bs with
    | nil => simp at h
    | cons b bs =>
      simp only [List.map_cons, List.cons.injEq] at h
      obtain ⟨hab, hrest⟩ := h
      have hp : a.tradeProb = b.tradeProb := congrArg Prod.fst hab
      have hc : a.noiseCount = b.noiseCount := congrArg Prod.snd hab
      simp only [noisePasses, hp, hc]
      split_ifs
      · rw [ih bs _ hrest]
      · exact ih bs _ hrest

theorem noiseParticipations_congr (rnd : Nat → α) (as bs : List (Agent α)) (pos : Nat)
    (h : as.map Agent.gateKey = bs.map Agent.gateKey) (n : Nat) :
    noiseParticipations rnd as pos n = noiseParticipations rnd bs pos n := by
  have hlen : as.length = bs.length := by
    have := congrArg List.length h
    simpa using this
  induction n with
  | zero => rfl
  | succ n ih => simp only [noiseParticipations, ih, hlen, noisePasses_congr rnd as bs _ h]

theorem specPeriod_pos (M : Libm α) (rnd : Nat → α) (price : α) (as : List (Agent α))
    (pos : Nat) :
    (specPeriod M rnd price as pos).pos = pos + as.length + noisePasses rnd as pos ∧
      (specPeriod M rnd price as pos).agents.map Agent.gateKey = as.map Agent.gateKey := by
  induction as generalizing pos with
  | nil => simp [specPeriod, noisePasses]
  | cons a as ih =>
    by_cases h : rnd pos < a.tradeProb
    · have ht := Agent.tick_gateKey M rnd price (pos + 1) a
      simp only [specPeriod, noisePasses, h, if_true, List.map_cons, ht.1, ht.2, (ih _).1,
        (ih _).2, List.length_cons]
      exact ⟨by ring, trivial⟩
    · simp only [specPeriod, noisePasses, h, if_false, List.map_cons, (ih _).1, (ih _).2,
        List.length_cons]
      exact ⟨by ring, trivial⟩

theorem afterPeriods_pos (M : Libm α) (rnd : Nat → α) (d : Dealer α) (i : Int) (s : Sim α)
    (n : Nat) :
    (afterPeriods M rnd d i s n).pos =
        s.pos + n * s.agents.length + noiseParticipations rnd s.agents s.pos n ∧
      (afterPeriods M rnd d i s n).agents.map Agent.gateKey = s.agents.map Agent.gateKey := by
  induction n with
  | zero => simp [afterPeriods_zero, noiseParticipations]
  | succ n ih =>
    rw [afterPeriods_succ]
    have hsp := specPeriod_pos M rnd (afterPeriods M rnd d i s n).price
      (afterPeriods M rnd d i s n).agents (afterPeriods M rnd d i s n).pos
    have hlen : (afterPeriods M rnd d i s n).agents.length = s.agents.length := by
      have := congrArg List.length ih.2
      simpa using this
    simp only [periodStep, pollAgents_eq]
    refine ⟨?_, hsp.2.trans ih.2⟩
    rw [hsp.1, noisePasses_congr rnd _ _ _ ih.2, hlen, ih.1]
    simp only [noiseParticipations]
    ring

/-- C15: the loop over the agents polls them in insertion order, each at the cursor
left by the ones before; polling one agent takes exactly one gate draw `u`; if
`u < tradeProb` fails, `tick` is not called: `net` and the agent (so the state of a
momentum agent) are unchanged and the cursor moves by one; if it holds, the flow
of `tick` is added; the `tick` of a noise agent takes the next element of the stream
and moves the cursor by one more, the other agents draw nothing; and a replication
entered at cursor `pos` with `A` agents leaves the cursor at `pos + P * A` plus the
number of noise-agent participations. -/
theorem draws_consumed (M : Libm α) (rnd : Nat → α) (d : Dealer α) (P : Int) (price : α) :
    (∀ (as : List (Agent α)) (a : Agent α) (net : α) (pos : Nat),
        pollAgents M rnd price (as ++ [a]) net pos =
          pollAgent M rnd price (pollAgents M rnd price as net pos) a) ∧
      (∀ (p : Poll α) (a : Agent α), ¬ rnd p.pos < a.tradeProb →
        pollAgent M rnd price p a = ⟨p.net, p.pos + 1, p.agents ++ [a]⟩) ∧
      (∀ (p : Poll α) (a : Agent α), rnd p.pos < a.tradeProb →
        pollAgent M rnd price p a =
          ⟨p.net + (a.tick M rnd price (p.pos + 1)).flow, p.pos + 1 + a.noiseCount,
            p.agents ++ [(a.tick M rnd price (p.pos + 1)).agent]⟩) ∧
      (∀ (a : NoiseAgent α) (q : Nat),
        (Agent.noise a).tick M rnd price q = ⟨rnd q * a.tradeScale, .noise a, q + 1⟩) ∧
      ∀ (s : Sim α) (i : Nat),
        (replication M rnd d P s i).pos =
          s.pos + P.toNat * s.agents.length + noiseParticipations rnd s.agents s.pos P.toNat := by
  refine ⟨fun as a net pos => ?_, fun p a h => ?_, fun p a h => ?_, fun a q => rfl,
    fun s i => ?_⟩
  · simp [pollAgents, List.foldl_append]
  · simp [pollAgent, h]
  · simp [pollAgent, h, (Agent.tick_gateKey M rnd price (p.pos + 1) a).2]
  · rw [replication_eq]
    have h := (afterPeriods_pos M rnd d i (replicationStart s i) P.toNat).1
    have hk : (replicationStart s i).agents.map Agent.gateKey = s.agents.map Agent.gateKey := by
      simp [replicationStart, List.map_map, Function.comp_def, Agent.reset_gateKey]
    have hlen : (replicationStart s i).agents.length = s.agents.length := by
      simp [replicationStart]
    have hpos : (replicationStart s i).pos = s.pos := rfl
    rw [h, hlen, hpos, noiseParticipations_congr rnd _ _ _ hk]

/-- Witness for C15: a noise agent and a momentum agent, two periods, the stream
`2, 0, 0, 0, ...` from cursor 0. The noise agent fails its first gate and passes
its second: 4 gate draws and 1 draw inside `tick`. -/
theorem draws_consumed_witness :
    (replication realMath (fun n => if n = 0 then 2 else 0)
        (⟨[.noise (NoiseAgent.new 1), .momentum ⟨1, 1, 1, 2, 0⟩], 1⟩ : Dealer ℝ) 2
        ⟨[.noise (NoiseAgent.new 1), .momentum ⟨1, 1, 1, 2, 0⟩], 0, 1, 0, []⟩ 0).pos = 5 := by
  have h := (draws_consumed realMath (fun n => if n = 0 then (2 : ℝ) else 0)
    (⟨[.noise (NoiseAgent.new 1), .momentum ⟨1, 1, 1, 2, 0⟩], 1⟩ : Dealer ℝ) 2 1).2.2.2.2
    ⟨[.noise (NoiseAgent.new 1), .momentum ⟨1, 1, 1, 2, 0⟩], 0, 1, 0, []⟩ 0
  have h2 : (2 : Int).toNat = 2 := rfl
  rw [h, h2]
  norm_num [noiseParticipations, noisePasses, Agent.tradeProb, Agent.noiseCount, NoiseAgent.new]

end Draws

/-! ## Option pricing primitives over the reals -/

section Options

/-- The double `exp (1000)` is `inf`. -/
theorem exp_thousand_overflows : (2 : ℝ) ^ (1024 : ℕ) ≤ Real.exp 1000 := by
  have h1 : (2.7 : ℝ) < Real.exp 1 := lt_trans (by norm_num) Real.exp_one_gt_d9
  have h3 : Real.exp 1000 = Real.exp 1 ^ (1000 : ℕ) := by
    rw [← Real.exp_nat_mul]
    norm_num
  rw [h3]
  calc (2 : ℝ) ^ (1024 : ℕ) ≤ (2.7 : ℝ) ^ (1000 : ℕ) := by norm_num
    _ ≤ Real.exp 1 ^ (1000 : ℕ) := pow_le_pow_left₀ (by norm_num) h1.le 1000

theorem realCmath_exp (x : ℝ) (h : Real.exp x < (2 : ℝ) ^ (1024 : ℕ)) :
    realCmath.exp x = some (dexp x) := by
  simp [realCmath, not_le.2 h]

/-- C17 as stated fails: at `S = K = 100`, `r = -1000`, `T = 1` the factor
`exp (-1 * r * T) = exp 1000` overflows; the C++ product `0 * inf` is NaN, the test
`NaN < 0` is false and NaN is returned, which is neither `max (S - K) 0 * exp (-r * T)`
nor a number `≥ 0`. In the model both functions have no finite result. -/
theorem intrinsic_value_overflow :
    calc_discounted_call_intrinsic_value realCmath 100 100 (-1000) 1 = none ∧
      calc_discounted_put_intrinsic_value realCmath 100 100 (-1000) 1 = none := by
  have h : (2 : ℝ) ^ (1024 : ℕ) ≤ Real.exp (-1 * -1000 * 1) := by
    have h1 : (-1 * -1000 * 1 : ℝ) = 1000 := by norm_num
    rw [h1]
    exact exp_thousand_overflows
  constructor
  · simp only [calc_discounted_call_intrinsic_value, realCmath, if_pos h]
    rfl
  · simp only [calc_discounted_put_intrinsic_value, realCmath, if_pos h]
    rfl

/-- C17 amended: for all `S`, `K`, `r`, `T` for which `exp (-r * T)` does not
overflow (its exact value is below `2 ^ 1024`), with `E` the double `exp (-r * T)`:
the discounted call value is `max (S - K) 0 * E` and the discounted put value is
`max (K - S) 0 * E`; both are non-negative, one of them is 0, and call minus put is
`(S - K) * E`. -/
theorem intrinsic_value_parity (S K r T : ℝ) (hexp : Real.exp (-r * T) < (2 : ℝ) ^ (1024 : ℕ)) :
    calc_discounted_call_intrinsic_value realCmath S K r T =
        some (max (S - K) 0 * dexp (-r * T)) ∧
      calc_discounted_put_intrinsic_value realCmath S K r T =
        some (max (K - S) 0 * dexp (-r * T)) ∧
      0 ≤ max (S - K) 0 * dexp (-r * T) ∧
      0 ≤ max (K - S) 0 * dexp (-r * T) ∧
      (max (S - K) 0 * dexp (-r * T) = 0 ∨ max (K - S) 0 * dexp (-r * T) = 0) ∧
      max (S - K) 0 * dexp (-r * T) - max (K - S) 0 * dexp (-r * T) =
        (S - K) * dexp (-r * T) := by
  have hE : 0 ≤ dexp (-r * T) := dexp_nonneg _
  have he : realCmath.exp (-1 * r * T) = some (dexp (-r * T)) := by
    rw [neg_one_mul]
    exact realCmath_exp _ hexp
  have key : ∀ x : ℝ, (if x * dexp (-r * T) < 0 then (0 : ℝ) else x * dexp (-r * T)) =
      max x 0 * dexp (-r * T) := by
    intro x
    rcases lt_or_le x 0 with h | h
    · rw [max_eq_right h.le, zero_mul]
      split_ifs with h2
      · rfl
      · exact le_antisymm (mul_nonpos_of_nonpos_of_nonneg h.le hE) (not_lt.1 h2)
    · rw [max_eq_left h, if_neg (not_lt.2 (mul_nonneg h hE))]
  refine ⟨?_, ?_, mul_nonneg (le_max_right _ _) hE, mul_nonneg (le_max_right _ _) hE, ?_, ?_⟩
  · simp only [calc_discounted_call_intrinsic_value, he, Option.bind_eq_bind, Option.some_bind,
      Option.pure_def]
    rw [← key (S - K)]
    split_ifs <;> rfl
  · simp only [calc_discounted_put_intrinsic_value, he, Option.bind_eq_bind, Option.some_bind,
      Option.pure_def]
    rw [← key (K - S)]
    split_ifs <;> rfl
  · rcases le_total S K with h | h
    · left
      rw [max_eq_right (by linarith), zero_mul]
    · right
      rw [max_eq_right (by linarith), zero_mul]
  · rcases le_total S K with h | h
    · rw [max_eq_right (by linarith), max_eq_left (by linarith)]
      ring
    · rw [max_eq_left (by linarith), max_eq_right (by linarith)]
      ring

/-- Witness for C17 amended: `S = 110`, `K = 100`, `r = 0`, `T = 1`. -/
theorem intrinsic_value_parity_witness :
    Real.exp (-0 * 1) < (2 : ℝ) ^ (1024 : ℕ) ∧
      calc_discounted_call_intrinsic_value realCmath 110 100 0 1 =
        some (max (110 - 100) 0 * dexp (-0 * 1)) :=
  ⟨by norm_num, (intrinsic_value_parity 110 100 0 1 (by norm_num)).1⟩

end Options

end FinEng
